import Mathlib

/-!
Verification of the incremental aggregation & retention engine of the
floorsheet pipeline (floorsheet_downloader.py, floorsheet_date_summarizer.py,
floorsheet_summarizer.py).

Dates are the "YYYY-MM-DD" strings the source compares lexicographically.
We model them as `String` and compare through `String.data : List Char`
with Mathlib's lexicographic linear order on lists, which coincides with
the `String` order (`String.le_iff_toList_le`) and with pandas' string
comparison semantics.  Quantities are `Int` (Python ints), monetary
amounts are `ℚ` (Python floats, modelled exactly: the programs only add,
subtract and divide them).
-/

/-- Lexicographic `≤` on strings, stated on the underlying character
lists (equal to the `String` order by `String.le_iff_toList_le`). -/
def strLe (a b : String) : Prop := a.data ≤ b.data

/-- Lexicographic `<` on strings, stated on the underlying character
lists (equal to the `String` order by `String.lt_iff_toList_lt`). -/
def strLt (a b : String) : Prop := a.data < b.data

instance : DecidableRel strLe := fun a b =>
  inferInstanceAs (Decidable (a.data ≤ b.data))

instance : DecidableRel strLt := fun a b =>
  inferInstanceAs (Decidable (a.data < b.data))

/-- One raw floorsheet transaction record, as produced by
`FloorsheetDownloader._extract_transactions`. -/
structure Txn where
  date : String
  transaction_no : String
  symbol : String
  symbol_full : String
  buyer_id : String
  buyer_name : String
  seller_id : String
  seller_name : String
  quantity : Int
  rate : ℚ
  amount : ℚ
deriving DecidableEq, Repr

/-- The composite dedup key built at floorsheet_downloader.py:272-273:
`df['key'] = df['date'] + '-' + df['transaction_no']`. -/
def keyStr (r : Txn) : String := r.date ++ "-" ++ r.transaction_no

/-- Result of a `save_to_parquet` call: the file contents afterwards
(`none` = the file still does not exist) and the returned success flag. -/
structure SaveOut where
  persisted : Option (List Txn)
  success : Bool
deriving DecidableEq, Repr

/-- `FloorsheetDownloader.save_to_parquet` (floorsheet_downloader.py:225-341),
with the file system made explicit: `existing?` is the current contents of
`output_file` (`none` if absent) and `cutoff` is the retention cutoff date
computed at lines 250-251.  In our model every record has `date` and
`transaction_no` fields, so the `'date' in df.columns` /
`'transaction_no' in df.columns` checks are always true. -/
def save_to_parquet (cutoff : String) (existing? : Option (List Txn))
    (df : List Txn) (append : Bool) : SaveOut :=
  if df = [] then ⟨existing?, false⟩
  else
    match append, existing? with
    | true, some existing =>
      -- append mode with an existing file (lines 255-317)
      let existingF := existing.filter fun r => decide (strLe cutoff r.date)
      let removed := existing.length - existingF.length
      let newRecords := df.filter fun r =>
        decide (keyStr r ∉ existingF.map keyStr)
      if newRecords ≠ [] then
        ⟨some (existingF ++ newRecords), true⟩
      else if 0 < removed then
        ⟨some existingF, true⟩
      else
        ⟨some existing, true⟩
    | _, _ =>
      -- no existing file (or append disabled): lines 322-338
      let dfF := df.filter fun r => decide (strLe cutoff r.date)
      if dfF.length < df.length then
        if dfF = [] then ⟨existing?, false⟩ else ⟨some dfF, true⟩
      else ⟨some df, true⟩

/-- Exit code of `floorsheet_downloader.main` (lines 376-394) as a function
of the downloaded batch and the prior file contents: non-empty batch runs
`save_to_parquet` and exits 1 on failure; empty batch exits 1. -/
def downloaderMainExit (cutoff : String) (existing? : Option (List Txn))
    (df : List Txn) : Nat :=
  if df ≠ [] then
    if (save_to_parquet cutoff existing? df true).success then 0 else 1
  else 1

/-! ## Pandas groupby keys

`summarize_by_date` groups one date's records with
`groupby(['buyer_id','buyer_name','symbol'])` (resp. seller columns),
which with pandas' default `sort=True` yields the group keys in
lexicographic order of the key tuple.  `key3Le` is that tuple order. -/

abbrev Key3 := String × String × String

/-- Lexicographic order on (id, name, symbol) tuples, as pandas sorts
groupby keys. -/
def key3Le (a b : Key3) : Prop :=
  strLt a.1 b.1 ∨ (a.1 = b.1 ∧
    (strLt a.2.1 b.2.1 ∨ (a.2.1 = b.2.1 ∧ strLe a.2.2 b.2.2)))

instance : DecidableRel key3Le := fun a b => by
  unfold key3Le strLt strLe; infer_instance

theorem str_data_inj {a b : String} (h : a.data = b.data) : a = b := by
  cases a; cases b; cases h; rfl

instance : IsTrans Key3 key3Le := by
  constructor
  rintro ⟨a1, a2, a3⟩ ⟨b1, b2, b3⟩ ⟨c1, c2, c3⟩ hab hbc
  simp only [key3Le, strLt, strLe] at *
  rcases hab with h1 | ⟨rfl, hab2⟩
  · rcases hbc with h2 | ⟨rfl, _⟩
    · exact Or.inl (lt_trans h1 h2)
    · exact Or.inl h1
  · rcases hbc with h2 | ⟨rfl, hbc2⟩
    · exact Or.inl h2
    · refine Or.inr ⟨rfl, ?_⟩
      rcases hab2 with g1 | ⟨rfl, g2⟩
      · rcases hbc2 with k1 | ⟨rfl, _⟩
        · exact Or.inl (lt_trans g1 k1)
        · exact Or.inl g1
      · rcases hbc2 with k1 | ⟨rfl, k2⟩
        · exact Or.inl k1
        · exact Or.inr ⟨rfl, le_trans g2 k2⟩

instance : IsAntisymm Key3 key3Le := by
  constructor
  rintro ⟨a1, a2, a3⟩ ⟨b1, b2, b3⟩ hab hba
  simp only [key3Le, strLt, strLe] at *
  rcases hab with h1 | ⟨rfl, hab2⟩
  · rcases hba with h2 | ⟨e, _⟩
    · exact absurd h2 (lt_asymm h1)
    · exact absurd h1 (e ▸ lt_irrefl _)
  · rcases hba with h2 | ⟨-, hba2⟩
    · exact absurd h2 (lt_irrefl _)
    · rcases hab2 with g1 | ⟨rfl, g2⟩
      · rcases hba2 with k1 | ⟨e, _⟩
        · exact absurd k1 (lt_asymm g1)
        · exact absurd g1 (e ▸ lt_irrefl _)
      · rcases hba2 with k1 | ⟨-, k2⟩
        · exact absurd k1 (lt_irrefl _)
        · exact congrArg _ (congrArg _ (str_data_inj (le_antisymm g2 k2)))

instance : IsTotal Key3 key3Le := by
  constructor
  rintro ⟨a1, a2, a3⟩ ⟨b1, b2, b3⟩
  simp only [key3Le, strLt, strLe]
  rcases lt_trichotomy a1.data b1.data with h1 | h1 | h1
  · exact Or.inl (Or.inl h1)
  · rcases lt_trichotomy a2.data b2.data with h2 | h2 | h2
    · exact Or.inl (Or.inr ⟨str_data_inj h1, Or.inl h2⟩)
    · rcases le_total a3.data b3.data with h3 | h3
      · exact Or.inl (Or.inr ⟨str_data_inj h1, Or.inr ⟨str_data_inj h2, h3⟩⟩)
      · exact Or.inr (Or.inr ⟨(str_data_inj h1).symm, Or.inr ⟨(str_data_inj h2).symm, h3⟩⟩)
    · exact Or.inr (Or.inr ⟨(str_data_inj h1).symm, Or.inl h2⟩)
  · exact Or.inr (Or.inl h1)

/-- One pandas groupby output row: the key tuple plus the summed
`quantity` and `amount` of the group. -/
structure GroupRow where
  broker : String
  name : String
  symbol : String
  quantity : Int
  amount : ℚ
deriving DecidableEq, Repr

/-- `df.groupby([id, name, symbol]).agg(quantity sum, amount sum)`:
the distinct key tuples in sorted order, each with the sums over the
records carrying that key. -/
def groupsBy (keyOf : Txn → Key3) (rs : List Txn) : List GroupRow :=
  (((rs.map keyOf).dedup).insertionSort key3Le).map fun k =>
    let ms := rs.filter fun r => decide (keyOf r = k)
    ⟨k.1, k.2.1, k.2.2, (ms.map (·.quantity)).sum, (ms.map (·.amount)).sum⟩

/-- The buy-side groupby of floorsheet_date_summarizer.py:91-94. -/
def buyGroups (rs : List Txn) : List GroupRow :=
  groupsBy (fun r => (r.buyer_id, r.buyer_name, r.symbol)) rs

/-- The sell-side groupby of floorsheet_date_summarizer.py:97-100. -/
def sellGroups (rs : List Txn) : List GroupRow :=
  groupsBy (fun r => (r.seller_id, r.seller_name, r.symbol)) rs

/-! ## Python dicts as association lists

All three accumulation loops in the source share one shape: a Python
dict keyed by a tuple, filled by "if key not in dict: insert fresh
entry, else update the entry in place".  A Python dict preserves
insertion order, so we model it as an association list where a fresh
key is appended at the end and an update rewrites the first (unique)
entry in place. -/

/-- Dict lookup: the first entry with the given key. -/
def lookupA {α β : Type} [DecidableEq α] (k : α) : List (α × β) → Option β
  | [] => none
  | (k', v) :: t => if k' = k then some v else lookupA k t

/-- Dict update in place: rewrite the value of the first entry with the
given key. -/
def updateA {α β : Type} [DecidableEq α] (k : α) (f : β → β) :
    List (α × β) → List (α × β)
  | [] => []
  | (k', v) :: t => if k' = k then (k', f v) :: t else (k', v) :: updateA k f t

/-- The keys of the dict, in insertion order. -/
def keysA {α β : Type} (m : List (α × β)) : List α := m.map Prod.fst

/-- One iteration of the shared loop shape: `if key not in dict:
dict[key] = ini item  else: <update dict[key] with item>`. -/
def upsertStep {α β γ : Type} [DecidableEq α] (key : β → α) (ini : β → γ)
    (upd : γ → β → γ) (m : List (α × γ)) (b : β) : List (α × γ) :=
  match lookupA (key b) m with
  | none => m ++ [(key b, ini b)]
  | some _ => updateA (key b) (fun c => upd c b) m

/-- The whole loop: fold `upsertStep` over the items. -/
def upsertFold {α β γ : Type} [DecidableEq α] (key : β → α) (ini : β → γ)
    (upd : γ → β → γ) (m : List (α × γ)) (items : List β) : List (α × γ) :=
  items.foldl (upsertStep key ini upd) m

/-! ## Date Rollup: `FloorsheetDateSummarizer.summarize_by_date` -/

/-- One value of the `broker_stock_aggs` dict of
floorsheet_date_summarizer.py:88-137: the accumulators before derived
metrics are added. -/
structure Agg where
  date : String
  broker_id : String
  broker_name : String
  symbol : String
  buy_quantity : Int
  buy_amount : ℚ
  sell_quantity : Int
  sell_amount : ℚ
deriving DecidableEq, Repr

/-- A row of a per-date summary DataFrame (accumulators plus the derived
metrics computed at floorsheet_date_summarizer.py:143-164). -/
structure SummaryRow where
  date : String
  broker_id : String
  broker_name : String
  symbol : String
  buy_quantity : Int
  buy_amount : ℚ
  sell_quantity : Int
  sell_amount : ℚ
  avg_buy_price : ℚ
  avg_sell_price : ℚ
  net_quantity : Int
  avg_holding_price : ℚ
deriving DecidableEq, Repr

/-- Dict key of `broker_stock_aggs`: `(broker_id, symbol)`. -/
def aggKey (g : GroupRow) : String × String := (g.broker, g.symbol)

/-- Fresh entry created by the buy loop (lines 106-116). -/
def buyIni (date : String) (g : GroupRow) : Agg :=
  ⟨date, g.broker, g.name, g.symbol, g.quantity, g.amount, 0, 0⟩

/-- In-place update of the buy loop's else branch (lines 117-119). -/
def buyUpd (a : Agg) (g : GroupRow) : Agg :=
  { a with buy_quantity := a.buy_quantity + g.quantity,
           buy_amount := a.buy_amount + g.amount }

/-- Fresh entry created by the sell loop (lines 124-134). -/
def sellIni (date : String) (g : GroupRow) : Agg :=
  ⟨date, g.broker, g.name, g.symbol, 0, 0, g.quantity, g.amount⟩

/-- In-place update of the sell loop's else branch (lines 135-137). -/
def sellUpd (a : Agg) (g : GroupRow) : Agg :=
  { a with sell_quantity := a.sell_quantity + g.quantity,
           sell_amount := a.sell_amount + g.amount }

/-- The `broker_stock_aggs` dict after both loops: all buy groups are
folded in first (lines 104-119), then all sell groups (lines 121-137). -/
def brokerStockAggs (date : String) (rs : List Txn) :
    List ((String × String) × Agg) :=
  upsertFold aggKey (sellIni date) sellUpd
    (upsertFold aggKey (buyIni date) buyUpd [] (buyGroups rs))
    (sellGroups rs)

/-- The Derived Metric Calculator (floorsheet_date_summarizer.py:143-164
and identically floorsheet_summarizer.py:98-119). -/
def derive (a : Agg) : SummaryRow :=
  { date := a.date
    broker_id := a.broker_id
    broker_name := a.broker_name
    symbol := a.symbol
    buy_quantity := a.buy_quantity
    buy_amount := a.buy_amount
    sell_quantity := a.sell_quantity
    sell_amount := a.sell_amount
    avg_buy_price :=
      if 0 < a.buy_quantity then a.buy_amount / (a.buy_quantity : ℚ) else 0
    avg_sell_price :=
      if 0 < a.sell_quantity then a.sell_amount / (a.sell_quantity : ℚ) else 0
    net_quantity := a.buy_quantity - a.sell_quantity
    avg_holding_price :=
      if 0 < a.buy_quantity - a.sell_quantity then
        (a.buy_amount - a.sell_amount) / ((a.buy_quantity - a.sell_quantity : Int) : ℚ)
      else 0 }

/-- The summary DataFrame built for one date (the value stored in
`date_summaries[date]`): the dict's values in insertion order, with
derived metrics. -/
def summarizeOneDate (date : String) (rs : List Txn) : List SummaryRow :=
  (brokerStockAggs date rs).map fun p => derive p.2

/-- `FloorsheetDateSummarizer.summarize_by_date` (lines 53-173): one
summary per distinct date, dates in first-appearance order
(`data['date'].unique()`), keeping only non-empty summaries (line 143). -/
def summarize_by_date (rs : List Txn) : List (String × List SummaryRow) :=
  (((rs.map (·.date)).eraseDups).map fun d =>
    (d, summarizeOneDate d (rs.filter fun r => decide (r.date = d)))).filter
    fun p => decide (p.2 ≠ [])

/-- `FloorsheetDateSummarizer.save_date_summaries` (lines 175-268), file
system explicit: `existing?` is the current contents of the output file,
the result is the table written (`none` when the function returns
`False` without writing). -/
def save_date_summaries (cutoff : String)
    (existing? : Option (List SummaryRow))
    (ds : List (String × List SummaryRow)) : Option (List SummaryRow) :=
  if ds = [] then none
  else
    let parts : List (List SummaryRow) :=
      match existing? with
      | some existing =>
        -- lines 201-245: merge with the (retention-filtered) existing table
        let exF := existing.filter fun r => decide (strLe cutoff r.date)
        if exF ≠ [] then
          ds.foldl (fun acc p =>
            if decide (p.1 ∈ exF.map (·.date)) then
              -- replace branch (lines 222-230)
              let filtered := exF.filter fun r => decide (r.date ≠ p.1)
              acc ++ (if filtered ≠ [] then [filtered] else []) ++ [p.2]
            else
              -- new-date branch (lines 231-234)
              acc ++ [p.2]) []
        else ds.map (·.2)
      | none => ds.map (·.2)
    let combined := parts.flatten
    if combined ≠ [] then some combined else none

/-- `FloorsheetDateSummarizer.run` (lines 270-287) plus the retention
filter of `load_data` (lines 41-46): returns the file contents after the
run and the success flag. -/
def dateRollup_run (cutoff : String) (raw : List Txn)
    (persisted? : Option (List SummaryRow)) :
    Option (List SummaryRow) × Bool :=
  let rawF := raw.filter fun r => decide (strLe cutoff r.date)
  if rawF = [] then (persisted?, false)
  else
    let ds := summarize_by_date rawF
    if ds = [] then (persisted?, false)
    else
      match save_date_summaries cutoff persisted? ds with
      | some t => (some t, true)
      | none => (persisted?, false)

/-! ## Global Rollup: `FloorsheetSummarizer.aggregate_broker_stock_data` -/

/-- One value of the `broker_stock_aggs` dict of
floorsheet_summarizer.py:65-92. -/
structure GAgg where
  broker_id : String
  broker_name : String
  symbol : String
  buy_quantity : Int
  buy_amount : ℚ
  sell_quantity : Int
  sell_amount : ℚ
  last_updated : String
deriving DecidableEq, Repr

/-- A row of the global summary (accumulators, `last_updated`, derived
metrics of floorsheet_summarizer.py:98-119). -/
structure GlobalRow where
  broker_id : String
  broker_name : String
  symbol : String
  buy_quantity : Int
  buy_amount : ℚ
  sell_quantity : Int
  sell_amount : ℚ
  last_updated : String
  avg_buy_price : ℚ
  avg_sell_price : ℚ
  net_quantity : Int
  avg_holding_price : ℚ
deriving DecidableEq, Repr

/-- Dict key of the global fold: `(broker_id, broker_name, symbol)`
(floorsheet_summarizer.py:69). -/
def gKey (r : SummaryRow) : Key3 := (r.broker_id, r.broker_name, r.symbol)

/-- Fresh entry (lines 71-82): accumulators from the row, `last_updated`
from its date. -/
def gIni (r : SummaryRow) : GAgg :=
  ⟨r.broker_id, r.broker_name, r.symbol, r.buy_quantity, r.buy_amount,
   r.sell_quantity, r.sell_amount, r.date⟩

/-- In-place update (lines 83-92): add the accumulators, bump
`last_updated` when the row's date is more recent. -/
def gUpd (a : GAgg) (r : SummaryRow) : GAgg :=
  { a with buy_quantity := a.buy_quantity + r.buy_quantity,
           buy_amount := a.buy_amount + r.buy_amount,
           sell_quantity := a.sell_quantity + r.sell_quantity,
           sell_amount := a.sell_amount + r.sell_amount,
           last_updated :=
             if strLt a.last_updated r.date then r.date else a.last_updated }

/-- Derived metrics for a global entry (floorsheet_summarizer.py:98-119;
the same guarded formulas as `derive`). -/
def deriveG (a : GAgg) : GlobalRow :=
  { broker_id := a.broker_id
    broker_name := a.broker_name
    symbol := a.symbol
    buy_quantity := a.buy_quantity
    buy_amount := a.buy_amount
    sell_quantity := a.sell_quantity
    sell_amount := a.sell_amount
    last_updated := a.last_updated
    avg_buy_price :=
      if 0 < a.buy_quantity then a.buy_amount / (a.buy_quantity : ℚ) else 0
    avg_sell_price :=
      if 0 < a.sell_quantity then a.sell_amount / (a.sell_quantity : ℚ) else 0
    net_quantity := a.buy_quantity - a.sell_quantity
    avg_holding_price :=
      if 0 < a.buy_quantity - a.sell_quantity then
        (a.buy_amount - a.sell_amount) / ((a.buy_quantity - a.sell_quantity : Int) : ℚ)
      else 0 }

/-- `FloorsheetSummarizer.aggregate_broker_stock_data` (lines 47-126):
fold every input row into the dict, then append derived metrics. -/
def aggregate_broker_stock_data (df : List SummaryRow) : List GlobalRow :=
  if df = [] then []
  else (upsertFold gKey gIni gUpd [] df).map fun p => deriveG p.2

/-! ## Association-list lemmas -/

section AssocList

variable {α β γ : Type} [DecidableEq α]

theorem lookupA_append_self (m : List (α × β)) (k : α) (v : β)
    (h : lookupA k m = none) : lookupA k (m ++ [(k, v)]) = some v := by
  induction m with
  | nil => simp [lookupA]
  | cons p t ih =>
    obtain ⟨k', v'⟩ := p
    by_cases hk : k' = k
    · simp [lookupA, hk] at h
    · simpa [lookupA, hk] using ih (by simpa [lookupA, hk] using h)

theorem lookupA_append_other (m : List (α × β)) (k k' : α) (v : β)
    (h : k' ≠ k) : lookupA k (m ++ [(k', v)]) = lookupA k m := by
  induction m with
  | nil => simp [lookupA, h]
  | cons p t ih =>
    obtain ⟨k'', v''⟩ := p
    by_cases hk : k'' = k <;> simp [lookupA, hk, ih]

theorem lookupA_updateA_self (m : List (α × β)) (k : α) (f : β → β) (c : β)
    (h : lookupA k m = some c) : lookupA k (updateA k f m) = some (f c) := by
  induction m with
  | nil => simp [lookupA] at h
  | cons p t ih =>
    obtain ⟨k', v'⟩ := p
    by_cases hk : k' = k
    · simp [lookupA, hk] at h
      simp [updateA, lookupA, hk, h]
    · simp [lookupA, hk] at h
      simp [updateA, lookupA, hk, ih h]

theorem lookupA_updateA_other (m : List (α × β)) (k k' : α) (f : β → β)
    (h : k' ≠ k) : lookupA k (updateA k' f m) = lookupA k m := by
  induction m with
  | nil => simp [updateA, lookupA]
  | cons p t ih =>
    obtain ⟨k'', v''⟩ := p
    by_cases hk : k'' = k'
    · subst hk
      simp only [updateA, if_pos rfl]
      simp [lookupA, h]
    · simp only [updateA, if_neg hk]
      by_cases hk2 : k'' = k <;> simp [lookupA, hk2, ih]

theorem keysA_updateA (m : List (α × β)) (k : α) (f : β → β) :
    keysA (updateA k f m) = keysA m := by
  induction m with
  | nil => rfl
  | cons p t ih =>
    obtain ⟨k', v'⟩ := p
    by_cases hk : k' = k
    · simp [updateA, keysA, hk]
    · simp only [updateA, if_neg hk]
      simpa [keysA] using ih

theorem lookupA_eq_none_iff (m : List (α × β)) (k : α) :
    lookupA k m = none ↔ k ∉ keysA m := by
  induction m with
  | nil => simp [lookupA, keysA]
  | cons p t ih =>
    obtain ⟨k', v'⟩ := p
    by_cases hk : k' = k
    · subst hk
      simp [lookupA, keysA]
    · simp [lookupA, keysA, hk, ih, Ne.symm hk]

theorem mem_of_lookupA {m : List (α × β)} {k : α} {c : β}
    (h : lookupA k m = some c) : (k, c) ∈ m := by
  induction m with
  | nil => simp [lookupA] at h
  | cons p t ih =>
    obtain ⟨k', v'⟩ := p
    by_cases hk : k' = k
    · simp [lookupA, hk] at h
      simp [hk, h]
    · simp [lookupA, hk] at h
      simp [ih h]

theorem lookupA_of_mem_nodup {m : List (α × β)} {k : α} {c : β}
    (hn : (keysA m).Nodup) (h : (k, c) ∈ m) : lookupA k m = some c := by
  induction m with
  | nil => simp at h
  | cons p t ih =>
    obtain ⟨k', v'⟩ := p
    have hn' := List.nodup_cons.mp (show (k' :: keysA t).Nodup from hn)
    rcases List.mem_cons.mp h with h1 | h1
    · cases h1
      simp [lookupA]
    · have hk : k' ≠ k := by
        rintro rfl
        exact hn'.1 (show _ ∈ keysA t from List.mem_map_of_mem Prod.fst h1)
      simp [lookupA, hk, ih hn'.2 h1]

theorem mem_updateA {m : List (α × β)} {k : α} {f : β → β} {p : α × β}
    (h : p ∈ updateA k f m) :
    p ∈ m ∨ ∃ c, (k, c) ∈ m ∧ p = (k, f c) := by
  induction m with
  | nil => simp [updateA] at h
  | cons q t ih =>
    obtain ⟨k', v'⟩ := q
    by_cases hk : k' = k
    · subst hk
      simp only [updateA, if_pos rfl] at h
      rcases List.mem_cons.mp h with h1 | h1
      · exact Or.inr ⟨v', by simp, h1⟩
      · exact Or.inl (List.mem_cons_of_mem _ h1)
    · simp only [updateA, if_neg hk] at h
      rcases List.mem_cons.mp h with h1 | h1
      · exact Or.inl (h1 ▸ List.mem_cons_self _ _)
      · rcases ih h1 with h2 | ⟨c, hc, hp⟩
        · exact Or.inl (List.mem_cons_of_mem _ h2)
        · exact Or.inr ⟨c, List.mem_cons_of_mem _ hc, hp⟩

end AssocList

/-! ## upsertFold lemmas -/

section UpsertFold

variable {α β γ : Type} [DecidableEq α]
variable (key : β → α) (ini : β → γ) (upd : γ → β → γ)

theorem upsertFold_cons (m : List (α × γ)) (b : β) (items : List β) :
    upsertFold key ini upd m (b :: items) =
      upsertFold key ini upd (upsertStep key ini upd m b) items := rfl

/-- `lookupA` through the fold, when the key is already present. -/
theorem lookupA_upsertFold_some {k : α} :
    ∀ (items : List β) (m : List (α × γ)) (c : γ),
      lookupA k m = some c →
      lookupA k (upsertFold key ini upd m items) =
        some ((items.filter fun b => decide (key b = k)).foldl upd c) := by
  intro items
  induction items with
  | nil => intro m c h; simpa [upsertFold] using h
  | cons b bs ih =>
    intro m c h
    rw [upsertFold_cons]
    by_cases hb : key b = k
    · subst hb
      have hstep : upsertStep key ini upd m b =
          updateA (key b) (fun c => upd c b) m := by
        simp [upsertStep, h]
      rw [hstep]
      have h2 : lookupA (key b) (updateA (key b) (fun c => upd c b) m) =
          some (upd c b) := lookupA_updateA_self m (key b) _ c h
      rw [ih _ _ h2]
      simp
    · have h2 : lookupA k (upsertStep key ini upd m b) = some c := by
        unfold upsertStep
        cases hl : lookupA (key b) m with
        | none => rw [lookupA_append_other m k (key b) _ hb]; exact h
        | some d => rw [lookupA_updateA_other m k (key b) _ hb]; exact h
      rw [ih _ _ h2]
      simp [hb]

/-- `lookupA` through the fold, when the key starts absent. -/
theorem lookupA_upsertFold_none {k : α} :
    ∀ (items : List β) (m : List (α × γ)),
      lookupA k m = none →
      lookupA k (upsertFold key ini upd m items) =
        match items.filter fun b => decide (key b = k) with
        | [] => none
        | b :: bs => some (bs.foldl upd (ini b)) := by
  intro items
  induction items with
  | nil => intro m h; simpa [upsertFold] using h
  | cons b bs ih =>
    intro m h
    rw [upsertFold_cons]
    by_cases hb : key b = k
    · subst hb
      have hstep : upsertStep key ini upd m b = m ++ [(key b, ini b)] := by
        simp [upsertStep, h]
      rw [hstep]
      have h2 : lookupA (key b) (m ++ [(key b, ini b)]) = some (ini b) :=
        lookupA_append_self m (key b) _ h
      rw [lookupA_upsertFold_some key ini upd bs _ _ h2]
      simp
    · have h2 : lookupA k (upsertStep key ini upd m b) = none := by
        unfold upsertStep
        cases hl : lookupA (key b) m with
        | none => rw [lookupA_append_other m k (key b) _ hb]; exact h
        | some d => rw [lookupA_updateA_other m k (key b) _ hb]; exact h
      rw [ih _ h2]
      simp [hb]

/-- Keys after one step: unchanged when the key is present, appended
otherwise. -/
theorem keysA_upsertStep (m : List (α × γ)) (b : β) :
    keysA (upsertStep key ini upd m b) =
      if key b ∈ keysA m then keysA m else keysA m ++ [key b] := by
  unfold upsertStep
  cases hl : lookupA (key b) m with
  | none =>
    rw [if_neg ((lookupA_eq_none_iff m (key b)).mp hl)]
    simp [keysA]
  | some c =>
    have : key b ∈ keysA m := by
      by_contra hmem
      rw [(lookupA_eq_none_iff m (key b)).mpr hmem] at hl
      cases hl
    rw [if_pos this, keysA_updateA]

theorem nodup_keysA_upsertFold :
    ∀ (items : List β) (m : List (α × γ)),
      (keysA m).Nodup → (keysA (upsertFold key ini upd m items)).Nodup := by
  intro items
  induction items with
  | nil => intro m h; exact h
  | cons b bs ih =>
    intro m h
    rw [upsertFold_cons]
    apply ih
    rw [keysA_upsertStep]
    by_cases hmem : key b ∈ keysA m
    · rwa [if_pos hmem]
    · rw [if_neg hmem]
      simp [List.nodup_append, h, hmem]

theorem mem_keysA_upsertStep (m : List (α × γ)) (b : β) {k : α}
    (h : k ∈ keysA m) : k ∈ keysA (upsertStep key ini upd m b) := by
  rw [keysA_upsertStep]
  by_cases hmem : key b ∈ keysA m
  · rwa [if_pos hmem]
  · rw [if_neg hmem]
    exact List.mem_append_left _ h

theorem mem_keysA_upsertFold_of_mem :
    ∀ (items : List β) (m : List (α × γ)) {k : α},
      k ∈ keysA m → k ∈ keysA (upsertFold key ini upd m items) := by
  intro items
  induction items with
  | nil => intro m k h; exact h
  | cons b bs ih =>
    intro m k h
    rw [upsertFold_cons]
    exact ih _ (mem_keysA_upsertStep key ini upd m b h)

theorem mem_keysA_upsertFold_of_item :
    ∀ (items : List β) (m : List (α × γ)) {b : β},
      b ∈ items → key b ∈ keysA (upsertFold key ini upd m items) := by
  intro items
  induction items with
  | nil => intro m b h; simp at h
  | cons b' bs ih =>
    intro m b h
    rw [upsertFold_cons]
    rcases List.mem_cons.mp h with rfl | h1
    · apply mem_keysA_upsertFold_of_mem
      rw [keysA_upsertStep]
      by_cases hmem : key b ∈ keysA m
      · rwa [if_pos hmem]
      · rw [if_neg hmem]
        simp
    · exact ih _ h1

end UpsertFold

/-! ## Provenance, field-consistency and sum lemmas for upsert folds -/

section UpsertFoldMore

variable {α β γ δ : Type} [DecidableEq α]
variable (key : β → α) (ini : β → γ) (upd : γ → β → γ)

/-- A field that `ini` copies from the item's key and `upd` never
touches agrees with the dict key of every entry. -/
theorem keyField_upsertFold (kf : γ → α)
    (hini : ∀ b, kf (ini b) = key b) (hupd : ∀ c b, kf (upd c b) = kf c) :
    ∀ (items : List β) (m : List (α × γ)),
      (∀ p ∈ m, kf p.2 = p.1) →
      ∀ p ∈ upsertFold key ini upd m items, kf p.2 = p.1 := by
  intro items
  induction items with
  | nil => intro m hm; exact hm
  | cons b bs ih =>
    intro m hm
    rw [upsertFold_cons]
    apply ih
    intro p hp
    unfold upsertStep at hp
    cases hl : lookupA (key b) m with
    | none =>
      rw [hl] at hp
      rcases List.mem_append.mp hp with h1 | h1
      · exact hm p h1
      · simp at h1
        subst h1
        exact hini b
    | some c =>
      rw [hl] at hp
      rcases mem_updateA hp with h1 | ⟨c', hc', hp'⟩
      · exact hm p h1
      · subst hp'
        simpa [hupd] using hm _ hc'

/-- Every entry's value field `nm` (not touched by `upd`) comes from the
item that created the entry, or was already in the initial dict. -/
theorem valField_upsertFold (nm : γ → δ) (nmB : β → δ)
    (hini : ∀ b, nm (ini b) = nmB b) (hupd : ∀ c b, nm (upd c b) = nm c) :
    ∀ (items : List β) (m : List (α × γ)) (p : α × γ),
      p ∈ upsertFold key ini upd m items →
      (∃ c, (p.1, c) ∈ m ∧ nm p.2 = nm c) ∨
        ∃ b ∈ items, key b = p.1 ∧ nm p.2 = nmB b := by
  intro items
  induction items with
  | nil =>
    intro m p hp
    exact Or.inl ⟨p.2, hp, rfl⟩
  | cons b bs ih =>
    intro m p hp
    rw [upsertFold_cons] at hp
    rcases ih _ p hp with ⟨c, hc, hnm⟩ | ⟨b', hb', hk, hnm⟩
    · unfold upsertStep at hc
      cases hl : lookupA (key b) m with
      | none =>
        rw [hl] at hc
        rcases List.mem_append.mp hc with h1 | h1
        · exact Or.inl ⟨c, h1, hnm⟩
        · simp at h1
          obtain ⟨h1a, h1b⟩ := h1
          refine Or.inr ⟨b, List.mem_cons_self .., h1a.symm, ?_⟩
          rw [hnm, h1b, hini]
      | some c0 =>
        rw [hl] at hc
        rcases mem_updateA hc with h1 | ⟨c', hc', hp'⟩
        · exact Or.inl ⟨c, h1, hnm⟩
        · obtain ⟨he1, he2⟩ := Prod.mk.injEq .. ▸ hp'
          refine Or.inl ⟨c', he1 ▸ hc', ?_⟩
          rw [hnm, he2, hupd]
    · exact Or.inr ⟨b', List.mem_cons_of_mem _ hb', hk, hnm⟩

/-- Updating in place the first entry with key `k` (present in the
dict) adds `d` to the `P`-filtered sum, when the update adds `d` to the
field and `k` satisfies `P`. -/
theorem sumVal_updateA (P : α → Prop) [DecidablePred P]
    {M : Type} [AddCommMonoid M] (f : γ → M) (g : γ → γ) (d : M)
    (hg : ∀ c, f (g c) = f c + d) :
    ∀ (m : List (α × γ)) (k : α),
      k ∈ keysA m →
      (((updateA k g m).filter fun p => decide (P p.1)).map fun p => f p.2).sum =
        ((m.filter fun p => decide (P p.1)).map fun p => f p.2).sum +
          (if P k then d else 0) := by
  intro m
  induction m with
  | nil => intro k h; simp [keysA] at h
  | cons q t ih =>
    obtain ⟨k', v'⟩ := q
    intro k hmem
    by_cases hk : k' = k
    · subst hk
      simp only [updateA, if_pos rfl]
      by_cases hP : P k' <;> simp [hP, hg, add_assoc, add_comm, add_left_comm]
    · have hmem' : k ∈ keysA t := by
        rcases List.mem_cons.mp (show k ∈ k' :: keysA t from hmem) with h1 | h1
        · exact absurd h1.symm hk
        · exact h1
      simp only [updateA, if_neg hk]
      by_cases hP : P k' <;> simp [hP, ih k hmem', add_assoc]

/-- Sum, over the entries whose key satisfies `P`, of an accumulator
field: the fold adds exactly the weights of the matching items. -/
theorem sumVal_upsertFold (P : α → Prop) [DecidablePred P]
    {M : Type} [AddCommMonoid M] (f : γ → M) (w : β → M)
    (hini : ∀ b, f (ini b) = w b) (hupd : ∀ c b, f (upd c b) = f c + w b) :
    ∀ (items : List β) (m : List (α × γ)),
      (((upsertFold key ini upd m items).filter fun p =>
          decide (P p.1)).map fun p => f p.2).sum =
        ((m.filter fun p => decide (P p.1)).map fun p => f p.2).sum +
          ((items.filter fun b => decide (P (key b))).map w).sum := by
  intro items
  induction items with
  | nil => intro m; simp [upsertFold]
  | cons b bs ih =>
    intro m
    rw [upsertFold_cons, ih]
    have hstep :
        (((upsertStep key ini upd m b).filter fun p =>
            decide (P p.1)).map fun p => f p.2).sum =
          ((m.filter fun p => decide (P p.1)).map fun p => f p.2).sum +
            (if P (key b) then w b else 0) := by
      unfold upsertStep
      cases hl : lookupA (key b) m with
      | none =>
        rw [List.filter_append, List.map_append, List.sum_append]
        by_cases hP : P (key b) <;> simp [hP, hini]
      | some c =>
        have hmem : key b ∈ keysA m := by
          by_contra hmem
          rw [(lookupA_eq_none_iff m (key b)).mpr hmem] at hl
          cases hl
        exact sumVal_updateA P f (fun c => upd c b) (w b)
          (fun c => hupd c b) m (key b) hmem
    rw [hstep]
    by_cases hP : P (key b) <;>
      simp [hP, add_assoc, add_comm, add_left_comm]

end UpsertFoldMore

/-! ## Derived-metric and fold helper lemmas -/

/-- The four derived-metric formulas, read off a derived row's own
accumulator fields. -/
theorem derive_spec (a : Agg) :
    (derive a).avg_buy_price =
      (if 0 < (derive a).buy_quantity then
        (derive a).buy_amount / ((derive a).buy_quantity : ℚ) else 0) ∧
    (derive a).avg_sell_price =
      (if 0 < (derive a).sell_quantity then
        (derive a).sell_amount / ((derive a).sell_quantity : ℚ) else 0) ∧
    (derive a).net_quantity = (derive a).buy_quantity - (derive a).sell_quantity ∧
    (derive a).avg_holding_price =
      (if 0 < (derive a).net_quantity then
        ((derive a).buy_amount - (derive a).sell_amount) /
          ((derive a).net_quantity : ℚ) else 0) :=
  ⟨rfl, rfl, rfl, rfl⟩

/-- Same formulas for the global stage. -/
theorem deriveG_spec (a : GAgg) :
    (deriveG a).avg_buy_price =
      (if 0 < (deriveG a).buy_quantity then
        (deriveG a).buy_amount / ((deriveG a).buy_quantity : ℚ) else 0) ∧
    (deriveG a).avg_sell_price =
      (if 0 < (deriveG a).sell_quantity then
        (deriveG a).sell_amount / ((deriveG a).sell_quantity : ℚ) else 0) ∧
    (deriveG a).net_quantity = (deriveG a).buy_quantity - (deriveG a).sell_quantity ∧
    (deriveG a).avg_holding_price =
      (if 0 < (deriveG a).net_quantity then
        ((deriveG a).buy_amount - (deriveG a).sell_amount) /
          ((deriveG a).net_quantity : ℚ) else 0) :=
  ⟨rfl, rfl, rfl, rfl⟩

/-- A field that every `upd` step increments by the item's weight, along
a plain `foldl`. -/
theorem foldl_addField {β γ : Type} {M : Type} [AddCommMonoid M]
    (upd : γ → β → γ) (f : γ → M) (w : β → M)
    (h : ∀ c b, f (upd c b) = f c + w b) :
    ∀ (l : List β) (c : γ), f (l.foldl upd c) = f c + (l.map w).sum := by
  intro l
  induction l with
  | nil => intro c; simp
  | cons b t ih =>
    intro c
    rw [List.foldl_cons, ih, h]
    simp [add_assoc]

/-- A field that no `upd` step touches, along a plain `foldl`. -/
theorem foldl_constField {β γ δ : Type} (upd : γ → β → γ) (f : γ → δ)
    (h : ∀ c b, f (upd c b) = f c) :
    ∀ (l : List β) (c : γ), f (l.foldl upd c) = f c := by
  intro l
  induction l with
  | nil => intro c; rfl
  | cons b t ih =>
    intro c
    rw [List.foldl_cons, ih, h]

/-! ## groupsBy lemmas -/

/-- Every record contributes a group carrying its key tuple. -/
theorem exists_group_of_mem (keyOf : Txn → Key3) {rs : List Txn} {r : Txn}
    (hr : r ∈ rs) :
    ∃ g ∈ groupsBy keyOf rs,
      g.broker = (keyOf r).1 ∧ g.name = (keyOf r).2.1 ∧
        g.symbol = (keyOf r).2.2 := by
  unfold groupsBy
  have hk : keyOf r ∈ ((rs.map keyOf).dedup).insertionSort key3Le := by
    rw [List.mem_insertionSort]
    exact List.mem_dedup.mpr (List.mem_map_of_mem keyOf hr)
  exact ⟨_, List.mem_map_of_mem _ hk, rfl, rfl, rfl⟩

/-- Every group's key tuple is the key of some record. -/
theorem mem_group_src (keyOf : Txn → Key3) {rs : List Txn} {g : GroupRow}
    (hg : g ∈ groupsBy keyOf rs) :
    ∃ r ∈ rs, keyOf r = (g.broker, g.name, g.symbol) := by
  unfold groupsBy at hg
  obtain ⟨k, hk, rfl⟩ := List.mem_map.mp hg
  have hk2 : k ∈ rs.map keyOf :=
    List.mem_dedup.mp ((List.mem_insertionSort key3Le).mp hk)
  obtain ⟨r, hr, rfl⟩ := List.mem_map.mp hk2
  exact ⟨r, hr, rfl⟩

/-- Pandas' sorted groupby output is invariant under permutation of the
input records. -/
theorem groupsBy_perm (keyOf : Txn → Key3) {rs1 rs2 : List Txn}
    (h : rs1.Perm rs2) : groupsBy keyOf rs1 = groupsBy keyOf rs2 := by
  unfold groupsBy
  have hkeys : ((rs1.map keyOf).dedup).insertionSort key3Le =
      ((rs2.map keyOf).dedup).insertionSort key3Le := by
    apply List.eq_of_perm_of_sorted (r := key3Le)
    · exact ((List.perm_insertionSort key3Le _).trans
        ((h.map keyOf).dedup)).trans (List.perm_insertionSort key3Le _).symm
    · exact List.sorted_insertionSort key3Le _
    · exact List.sorted_insertionSort key3Le _
  rw [hkeys]
  apply List.map_congr_left
  intro k _
  have hfil : (rs1.filter fun r => decide (keyOf r = k)).Perm
      (rs2.filter fun r => decide (keyOf r = k)) := h.filter _
  have hq : ((rs1.filter fun r => decide (keyOf r = k)).map (·.quantity)).sum =
      ((rs2.filter fun r => decide (keyOf r = k)).map (·.quantity)).sum :=
    (hfil.map _).sum_eq
  have ha : ((rs1.filter fun r => decide (keyOf r = k)).map (·.amount)).sum =
      ((rs2.filter fun r => decide (keyOf r = k)).map (·.amount)).sum :=
    (hfil.map _).sum_eq
  simp only [hq, ha]

/-! ## `last_updated` fold lemmas (Global Rollup) -/

theorem gUpd_lu (a : GAgg) (r : SummaryRow) :
    (gUpd a r).last_updated =
      if strLt a.last_updated r.date then r.date else a.last_updated := rfl

theorem foldl_gUpd_lu_le : ∀ (l : List SummaryRow) (c : GAgg),
    c.last_updated.data ≤ ((l.foldl gUpd c).last_updated).data := by
  intro l
  induction l with
  | nil => intro c; exact le_rfl
  | cons r t ih =>
    intro c
    rw [List.foldl_cons]
    refine le_trans ?_ (ih (gUpd c r))
    rw [gUpd_lu]
    by_cases h : strLt c.last_updated r.date
    · rw [if_pos h]
      simp only [strLt] at h
      exact le_of_lt h
    · rw [if_neg h]

theorem foldl_gUpd_lu_ge_mem : ∀ (l : List SummaryRow) (c : GAgg)
    (r : SummaryRow), r ∈ l →
    r.date.data ≤ ((l.foldl gUpd c).last_updated).data := by
  intro l
  induction l with
  | nil => intro c r h; simp at h
  | cons r' t ih =>
    intro c r h
    rw [List.foldl_cons]
    rcases List.mem_cons.mp h with rfl | h1
    · refine le_trans ?_ (foldl_gUpd_lu_le t (gUpd c r))
      rw [gUpd_lu]
      by_cases hlt : strLt c.last_updated r.date
      · rw [if_pos hlt]
      · rw [if_neg hlt]
        simp only [strLt] at hlt
        exact le_of_not_lt hlt
    · exact ih (gUpd c r') r h1

theorem foldl_gUpd_lu_mem : ∀ (l : List SummaryRow) (c : GAgg),
    ((l.foldl gUpd c).last_updated) = c.last_updated ∨
      ((l.foldl gUpd c).last_updated) ∈ l.map (·.date) := by
  intro l
  induction l with
  | nil => intro c; exact Or.inl rfl
  | cons r t ih =>
    intro c
    rw [List.foldl_cons]
    rcases ih (gUpd c r) with h | h
    · rw [h, gUpd_lu]
      by_cases hlt : strLt c.last_updated r.date
      · rw [if_pos hlt]
        exact Or.inr (by simp)
      · rw [if_neg hlt]
        exact Or.inl rfl
    · exact Or.inr (List.mem_cons_of_mem _ h)

/-! ## Concrete inputs used by the claim theorems -/

/-- Convenient transaction constructor for concrete scenarios. -/
def mkTxn (d no sym bid bnm sid snm : String) (q : Int) (amt : ℚ) : Txn :=
  ⟨d, no, sym, sym, bid, bnm, sid, snm, q, 0, amt⟩

def txC3k1 : Txn := mkTxn "2024-01-02" "1" "SYM" "B1" "BrokerOne" "S1" "SellerOne" 5 50
def txC3k2old : Txn := mkTxn "2024-01-02" "2" "SYM" "B1" "BrokerOne" "S1" "SellerOne" 10 100
def txC3k2new : Txn := mkTxn "2024-01-02" "2" "SYM" "B1" "BrokerOne" "S1" "SellerOne" 99 990
def txC3k3 : Txn := mkTxn "2024-01-02" "3" "SYM" "B1" "BrokerOne" "S1" "SellerOne" 7 70

def txFreshC4 : Txn := mkTxn "2024-06-01" "1" "SYM" "B1" "BrokerOne" "S1" "SellerOne" 5 50
def txStaleC4 : Txn := mkTxn "2020-05-05" "9" "SYM" "B1" "BrokerOne" "S1" "SellerOne" 3 30

def txStaleC8 : Txn := mkTxn "2020-05-05" "9" "SYM" "B1" "BrokerOne" "S1" "SellerOne" 3 30

/-! ## C3: Transaction Dedup Merge collision semantics -/

/-- C3 counterexample: with persisted keys `{k1,k2}` and a new batch
with keys `{k2,k3}`, the merged table has exactly rows `[k1-old, k2-old,
k3-new]`: on the key collision at `k2` the *existing* row is retained
and the new row is dropped, contradicting the claim that the row from
the new batch replaces the existing row. -/
theorem save_to_parquet_collision_keeps_old :
    (save_to_parquet "2020-01-01" (some [txC3k1, txC3k2old])
        [txC3k2new, txC3k3] true).persisted =
      some [txC3k1, txC3k2old, txC3k3] ∧
    keyStr txC3k2new = keyStr txC3k2old ∧ txC3k2new ≠ txC3k2old := by
  refine ⟨rfl, rfl, by decide⟩

/-- In append mode with an existing file and a non-empty batch,
`save_to_parquet` reduces to the dedup merge of lines 255-306. -/
theorem save_to_parquet_merge_eq (cutoff : String) (existing df : List Txn)
    (hdf : df ≠ []) :
    save_to_parquet cutoff (some existing) df true =
      (let exF := existing.filter fun r => decide (strLe cutoff r.date)
       let newRecords := df.filter fun r => decide (keyStr r ∉ exF.map keyStr)
       if newRecords ≠ [] then ⟨some (exF ++ newRecords), true⟩
       else if 0 < existing.length - exF.length then ⟨some exF, true⟩
       else ⟨some existing, true⟩) := by
  unfold save_to_parquet
  rw [if_neg hdf]

/-- C3 amended: the merged key set is the union of the (retention-
filtered) existing keys and the new-batch keys, but on key collision
the **existing** row wins: every existing filtered row is retained, and
a new row enters only when its key is fresh. -/
theorem save_to_parquet_merge_characterization (cutoff : String)
    (existing df : List Txn) (hdf : df ≠ []) :
    ∃ m, (save_to_parquet cutoff (some existing) df true).persisted = some m ∧
      (∀ k, (∃ r ∈ m, keyStr r = k) ↔
        ((∃ r ∈ existing.filter fun r => decide (strLe cutoff r.date),
            keyStr r = k) ∨ (∃ r ∈ df, keyStr r = k))) ∧
      (∀ r ∈ m, r ∈ (existing.filter fun r => decide (strLe cutoff r.date)) ∨
        (r ∈ df ∧
          keyStr r ∉ (existing.filter fun r =>
            decide (strLe cutoff r.date)).map keyStr)) ∧
      (∀ r ∈ existing.filter fun r => decide (strLe cutoff r.date), r ∈ m) := by
  rw [save_to_parquet_merge_eq cutoff existing df hdf]
  set exF := existing.filter fun r => decide (strLe cutoff r.date) with hexF
  set newRecords := df.filter fun r => decide (keyStr r ∉ exF.map keyStr)
    with hnewR
  show ∃ m, (if newRecords ≠ [] then
        (⟨some (exF ++ newRecords), true⟩ : SaveOut)
      else if 0 < existing.length - exF.length then ⟨some exF, true⟩
      else ⟨some existing, true⟩).persisted = some m ∧ _
  by_cases hnew : newRecords ≠ []
  · rw [if_pos hnew]
    refine ⟨exF ++ newRecords, rfl, ?_, ?_, ?_⟩
    · intro k
      constructor
      · rintro ⟨r, hr, rfl⟩
        rcases List.mem_append.mp hr with h1 | h1
        · exact Or.inl ⟨r, h1, rfl⟩
        · exact Or.inr ⟨r, List.mem_of_mem_filter h1, rfl⟩
      · rintro (⟨r, hr, rfl⟩ | ⟨r, hr, rfl⟩)
        · exact ⟨r, List.mem_append_left _ hr, rfl⟩
        · by_cases hk : keyStr r ∈ exF.map keyStr
          · obtain ⟨e, he, hek⟩ := List.mem_map.mp hk
            exact ⟨e, List.mem_append_left _ he, hek⟩
          · refine ⟨r, List.mem_append_right _ ?_, rfl⟩
            rw [hnewR]
            exact List.mem_filter.mpr ⟨hr, by simpa using hk⟩
    · intro r hr
      rcases List.mem_append.mp hr with h1 | h1
      · exact Or.inl h1
      · have h2 := List.mem_filter.mp (hnewR ▸ h1)
        exact Or.inr ⟨h2.1, by simpa using h2.2⟩
    · intro r hr
      exact List.mem_append_left _ hr
  · rw [if_neg hnew]
    push_neg at hnew
    have hdfkeys : ∀ r ∈ df, keyStr r ∈ exF.map keyStr := by
      intro r hr
      by_contra hk
      have : r ∈ newRecords := by
        rw [hnewR]
        exact List.mem_filter.mpr ⟨hr, by simpa using hk⟩
      rw [hnew] at this
      simp at this
    have hkeyset : ∀ k, (∃ r ∈ exF, keyStr r = k) ↔
        ((∃ r ∈ exF, keyStr r = k) ∨ (∃ r ∈ df, keyStr r = k)) := by
      intro k
      constructor
      · exact Or.inl
      · rintro (h | ⟨r, hr, rfl⟩)
        · exact h
        · obtain ⟨e, he, hek⟩ := List.mem_map.mp (hdfkeys r hr)
          exact ⟨e, he, hek⟩
    by_cases hrem : 0 < existing.length - exF.length
    · rw [if_pos hrem]
      refine ⟨exF, rfl, hkeyset, fun r hr => Or.inl hr, fun r hr => hr⟩
    · rw [if_neg hrem]
      have hfil : exF = existing := by
        rw [hexF]
        apply List.Sublist.eq_of_length (List.filter_sublist existing)
        have h1 : exF.length ≤ existing.length :=
          hexF ▸ (List.filter_sublist existing).length_le
        have h2 : existing.length ≤ exF.length :=
          Nat.sub_eq_zero_iff_le.mp (Nat.eq_zero_of_not_pos hrem)
        rw [hexF] at h1 h2
        exact le_antisymm h1 h2
      refine ⟨existing, rfl, ?_, ?_, ?_⟩
      · rw [← hfil]; exact hkeyset
      · rw [← hfil]; exact fun r hr => Or.inl hr
      · rw [← hfil]; exact fun r hr => hr

/-- Witness for the amended C3 theorem at a concrete input. -/
theorem save_to_parquet_merge_characterization_witness :
    ∃ m, (save_to_parquet "2020-01-01" (some [txC3k1]) [txC3k3] true).persisted
        = some m ∧
      (∀ k, (∃ r ∈ m, keyStr r = k) ↔
        ((∃ r ∈ [txC3k1].filter fun r => decide (strLe "2020-01-01" r.date),
            keyStr r = k) ∨ (∃ r ∈ [txC3k3], keyStr r = k))) ∧
      (∀ r ∈ m, r ∈ ([txC3k1].filter fun r =>
          decide (strLe "2020-01-01" r.date)) ∨
        (r ∈ [txC3k3] ∧
          keyStr r ∉ ([txC3k1].filter fun r =>
            decide (strLe "2020-01-01" r.date)).map keyStr)) ∧
      (∀ r ∈ [txC3k1].filter fun r => decide (strLe "2020-01-01" r.date),
        r ∈ m) :=
  save_to_parquet_merge_characterization "2020-01-01" [txC3k1] [txC3k3]
    (by decide)

/-! ## C4: retention applied to the incoming batch? -/

/-- C4: in the append path `save_to_parquet` retention-filters only the
existing rows; a new-batch row strictly older than the cutoff whose key
is fresh is merged and written, so the persisted table does contain a
row older than the cutoff, contradicting the claim. -/
theorem save_to_parquet_retention_leak :
    (save_to_parquet "2024-01-01" (some [txFreshC4]) [txStaleC4]
        true).persisted = some [txFreshC4, txStaleC4] ∧
    strLt txStaleC4.date "2024-01-01" := ⟨rfl, by decide⟩

/-! ## C8: empty-after-retention batch with no existing table -/

/-- C8 counterexample: a non-empty batch that the retention filter
empties, with no existing file, makes `save_to_parquet` return `False`
without writing, and `main` exits 1 — a failure, not a successful
no-op as the claim states. -/
theorem save_to_parquet_empty_after_filter_fails :
    save_to_parquet "2024-01-01" none [txStaleC8] true = ⟨none, false⟩ ∧
      downloaderMainExit "2024-01-01" none [txStaleC8] = 1 := ⟨rfl, rfl⟩

/-- C8 amended: whenever the new batch is non-empty but every record is
strictly older than the cutoff and no table exists, the write is
skipped (the file stays absent) and the run reports **failure**: the
save returns `False` and the driver exits non-zero. -/
theorem save_to_parquet_empty_after_filter_general (cutoff : String)
    (df : List Txn) (hdf : df ≠ [])
    (hstale : ∀ r ∈ df, strLt r.date cutoff) :
    save_to_parquet cutoff none df true = ⟨none, false⟩ ∧
      downloaderMainExit cutoff none df = 1 := by
  have hfil : (df.filter fun r => decide (strLe cutoff r.date)) = [] := by
    rw [List.filter_eq_nil_iff]
    intro r hr
    have := hstale r hr
    simp only [strLt] at this
    simp only [strLe, decide_eq_true_eq]
    exact not_le.mpr this
  have hsave : save_to_parquet cutoff none df true = ⟨none, false⟩ := by
    unfold save_to_parquet
    rw [if_neg hdf]
    show (let dfF := df.filter fun r => decide (strLe cutoff r.date)
      if dfF.length < df.length then
        if dfF = [] then (⟨none, false⟩ : SaveOut) else ⟨some dfF, true⟩
      else ⟨some df, true⟩) = ⟨none, false⟩
    rw [show (df.filter fun r => decide (strLe cutoff r.date)) = [] from hfil]
    have hlen : (0 : Nat) < df.length := List.length_pos.mpr hdf
    simp [hlen]
  refine ⟨hsave, ?_⟩
  unfold downloaderMainExit
  rw [if_pos hdf, hsave]
  rfl

/-- Witness for the amended C8 theorem at a concrete input. -/
theorem save_to_parquet_empty_after_filter_general_witness :
    save_to_parquet "2024-01-01" none [txStaleC8] true = ⟨none, false⟩ ∧
      downloaderMainExit "2024-01-01" none [txStaleC8] = 1 :=
  save_to_parquet_empty_after_filter_general "2024-01-01" [txStaleC8]
    (by decide) (by decide)

/-! ## C1/C2: Date Rollup upsert-by-date -/

def txD1 : Txn := mkTxn "2024-01-02" "1" "X" "B1" "BrokerOne" "B2" "BrokerTwo" 100 1000
def txD2 : Txn := mkTxn "2024-01-03" "1" "X" "B1" "BrokerOne" "B2" "BrokerTwo" 50 500

/-- A Raw Store content with two trading dates. -/
def rawC1 : List Txn := [txD1, txD2]

/-- The Date Rollup table after a first run from scratch. -/
def tableC1 : List SummaryRow :=
  (dateRollup_run "2020-01-01" rawC1 none).1.getD []

/-- The Date Rollup table after a second run on the same raw content. -/
def tableC1b : List SummaryRow :=
  (dateRollup_run "2020-01-01" rawC1 (some tableC1)).1.getD []

/-- C1: running the Date Rollup twice on a Raw Store with two dates is
not idempotent: the first run persists 4 rows, the second run persists
8 rows — `save_date_summaries` re-appends the whole filtered existing
table once per overlapping date (lines 221-230), duplicating every row —
so the second table is not a permutation of the first. -/
theorem dateRollup_run_not_idempotent :
    (dateRollup_run "2020-01-01" rawC1 none).1 = some tableC1 ∧
    (dateRollup_run "2020-01-01" rawC1 (some tableC1)).1 = some tableC1b ∧
    tableC1.length = 4 ∧ tableC1b.length = 8 ∧
    ¬ tableC1b.Perm tableC1 :=
  ⟨rfl, rfl, rfl, rfl, fun h => absurd h.length_eq (by decide)⟩

def exRowC2 : SummaryRow :=
  ⟨"2024-01-01", "B9", "BrokerNine", "Y", 10, 100, 0, 0, 10, 0, 10, 10⟩
def newRowC2 : SummaryRow :=
  ⟨"2024-01-02", "B1", "BrokerOne", "X", 5, 50, 0, 0, 10, 0, 5, 10⟩

/-- C2: when the run's new summaries contain no date already present in
the persisted table, `save_date_summaries` never re-appends the
existing rows (the replace branch at lines 222-230 is the only one that
carries them over), so a persisted row for an untouched, within-
retention date is silently dropped — contradicting the claim that rows
of dates not recomputed are carried over exactly once. -/
theorem save_date_summaries_drops_untouched_date :
    save_date_summaries "2020-01-01" (some [exRowC2])
        [("2024-01-02", [newRowC2])] = some [newRowC2] ∧
      strLe "2020-01-01" exRowC2.date ∧
      exRowC2.date ≠ "2024-01-02" ∧
      exRowC2 ∉ [newRowC2] :=
  ⟨rfl, by decide, by decide, by decide⟩

/-! ## C5/C6: derived metrics -/

/-- C5: every row produced by either rollup stage satisfies the four
derived-metric formulas: guarded average buy/sell prices, net quantity
as buy minus sell, and guarded average holding price (0 for zero or
negative net positions). -/
theorem derived_metrics_correct (d : String) (rs : List Txn)
    (df : List SummaryRow) :
    (∀ row ∈ summarizeOneDate d rs,
      row.avg_buy_price =
        (if 0 < row.buy_quantity then
          row.buy_amount / (row.buy_quantity : ℚ) else 0) ∧
      row.avg_sell_price =
        (if 0 < row.sell_quantity then
          row.sell_amount / (row.sell_quantity : ℚ) else 0) ∧
      row.net_quantity = row.buy_quantity - row.sell_quantity ∧
      row.avg_holding_price =
        (if 0 < row.net_quantity then
          (row.buy_amount - row.sell_amount) / (row.net_quantity : ℚ)
        else 0)) ∧
    (∀ p ∈ aggregate_broker_stock_data df,
      p.avg_buy_price =
        (if 0 < p.buy_quantity then
          p.buy_amount / (p.buy_quantity : ℚ) else 0) ∧
      p.avg_sell_price =
        (if 0 < p.sell_quantity then
          p.sell_amount / (p.sell_quantity : ℚ) else 0) ∧
      p.net_quantity = p.buy_quantity - p.sell_quantity ∧
      p.avg_holding_price =
        (if 0 < p.net_quantity then
          (p.buy_amount - p.sell_amount) / (p.net_quantity : ℚ)
        else 0)) := by
  constructor
  · intro row hrow
    unfold summarizeOneDate at hrow
    obtain ⟨q, _, rfl⟩ := List.mem_map.mp hrow
    exact derive_spec q.2
  · intro p hp
    unfold aggregate_broker_stock_data at hp
    by_cases hdf : df = []
    · rw [if_pos hdf] at hp
      simp at hp
    · rw [if_neg hdf] at hp
      obtain ⟨q, _, rfl⟩ := List.mem_map.mp hp
      exact deriveG_spec q.2

/-- A concrete produced row used to witness C5/C6: the first row of a
one-transaction summary. -/
def rowC5 : SummaryRow :=
  (summarizeOneDate "2024-01-02" [txD1]).head (by decide)

/-- Witness for C5 at a concrete produced row. -/
theorem derived_metrics_correct_witness :
    rowC5.avg_buy_price =
      (if 0 < rowC5.buy_quantity then
        rowC5.buy_amount / (rowC5.buy_quantity : ℚ) else 0) ∧
    rowC5.avg_sell_price =
      (if 0 < rowC5.sell_quantity then
        rowC5.sell_amount / (rowC5.sell_quantity : ℚ) else 0) ∧
    rowC5.net_quantity = rowC5.buy_quantity - rowC5.sell_quantity ∧
    rowC5.avg_holding_price =
      (if 0 < rowC5.net_quantity then
        (rowC5.buy_amount - rowC5.sell_amount) / (rowC5.net_quantity : ℚ)
      else 0) :=
  (derived_metrics_correct "2024-01-02" [txD1] []).1 rowC5 (List.head_mem _)

def txC6 : Txn := mkTxn "2024-01-02" "1" "X" "B1" "BrokerOne" "B2" "BrokerTwo" 100 0

/-- Symbolic evaluation of the one-transaction, zero-amount summary. -/
theorem sumC6eval : summarizeOneDate "2024-01-02" [txC6] =
    [derive ⟨"2024-01-02", "B1", "BrokerOne", "X", 100, 0, 0, 0⟩,
     derive ⟨"2024-01-02", "B2", "BrokerTwo", "X", 0, 0, 100, 0⟩] := by
  simp [summarizeOneDate, brokerStockAggs, buyGroups, sellGroups, groupsBy,
    upsertFold, upsertStep, lookupA, updateA, aggKey, buyIni, sellIni,
    buyUpd, sellUpd, txC6, mkTxn, List.insertionSort, List.orderedInsert]

/-- C6 counterexample: a transaction with positive quantity and zero
amount produces a row with `buy_quantity = 100` but `avg_buy_price =
0/100 = 0`, so "`avg_buy_price` is 0 exactly when `buy_quantity` is 0"
fails in the right-to-left direction. -/
theorem avg_price_zero_biconditional_fails :
    ¬ (∀ row ∈ summarizeOneDate "2024-01-02" [txC6],
        (row.avg_buy_price = 0 ↔ row.buy_quantity = 0) ∧
        (row.avg_sell_price = 0 ↔ row.sell_quantity = 0)) := by
  intro h
  have hrow := h (derive ⟨"2024-01-02", "B1", "BrokerOne", "X", 100, 0, 0, 0⟩)
    (by rw [sumC6eval]; simp)
  have h1 := hrow.1.mp (by norm_num [derive])
  norm_num [derive] at h1

/-- C6 amended: the zero propagation holds left-to-right only — a zero
quantity forces the corresponding average price to 0 (a division is
only ever evaluated under a positive-quantity guard, so no
division-by-zero fault is reachable), but a zero average price does not
force a zero quantity (a zero traded amount is a counterexample). -/
theorem avg_price_zero_of_qty_zero (d : String) (rs : List Txn)
    (df : List SummaryRow) :
    (∀ row ∈ summarizeOneDate d rs,
      (row.buy_quantity = 0 → row.avg_buy_price = 0) ∧
      (row.sell_quantity = 0 → row.avg_sell_price = 0)) ∧
    (∀ p ∈ aggregate_broker_stock_data df,
      (p.buy_quantity = 0 → p.avg_buy_price = 0) ∧
      (p.sell_quantity = 0 → p.avg_sell_price = 0)) := by
  constructor
  · intro row hrow
    unfold summarizeOneDate at hrow
    obtain ⟨q, _, rfl⟩ := List.mem_map.mp hrow
    obtain ⟨h1, h2, -, -⟩ := derive_spec q.2
    constructor
    · intro h0
      rw [h1, h0]
      simp
    · intro h0
      rw [h2, h0]
      simp
  · intro p hp
    unfold aggregate_broker_stock_data at hp
    by_cases hdf : df = []
    · rw [if_pos hdf] at hp
      simp at hp
    · rw [if_neg hdf] at hp
      obtain ⟨q, _, rfl⟩ := List.mem_map.mp hp
      obtain ⟨h1, h2, -, -⟩ := deriveG_spec q.2
      constructor
      · intro h0
        rw [h1, h0]
        simp
      · intro h0
        rw [h2, h0]
        simp

/-- Witness for the amended C6 theorem at a concrete produced row. -/
theorem avg_price_zero_of_qty_zero_witness :
    (rowC5.buy_quantity = 0 → rowC5.avg_buy_price = 0) ∧
    (rowC5.sell_quantity = 0 → rowC5.avg_sell_price = 0) :=
  (avg_price_zero_of_qty_zero "2024-01-02" [txD1] []).1 rowC5 (List.head_mem _)

/-! ## C9: permutation invariance of the Broker-Stock Folder -/

/-- C9: for records of a single trading date, the per-date Broker-Stock
Folder output (including broker names and derived fields) is identical
for every permutation of the input records — pandas' sorted groupby
canonicalizes the fold order. -/
theorem summarizeOneDate_perm_invariant (d : String) (rs1 rs2 : List Txn)
    (_hdates : ∀ r ∈ rs1, r.date = d) (h : rs1.Perm rs2) :
    summarizeOneDate d rs1 = summarizeOneDate d rs2 := by
  unfold summarizeOneDate brokerStockAggs buyGroups sellGroups
  rw [groupsBy_perm (fun r => (r.buyer_id, r.buyer_name, r.symbol)) h,
    groupsBy_perm (fun r => (r.seller_id, r.seller_name, r.symbol)) h]

def txC9 : Txn := mkTxn "2024-01-02" "2" "X" "B3" "BrokerThree" "B1" "BrokerOne" 7 70

/-- Witness for C9 on a concrete two-record permutation. -/
theorem summarizeOneDate_perm_invariant_witness :
    summarizeOneDate "2024-01-02" [txD1, txC9] =
      summarizeOneDate "2024-01-02" [txC9, txD1] :=
  summarizeOneDate_perm_invariant "2024-01-02" [txD1, txC9] [txC9, txD1]
    (by decide) (List.Perm.swap txC9 txD1 [])

/-! ## C7: Global Rollup fold completeness -/

/-- C7: every output row of the Global Rollup carries, for its dict key
`(broker_id, broker_name, symbol)`, the sums of the four accumulators
over all input rows with that key and the maximum date among them as
`last_updated`; and for any `(broker_id, symbol)` the total output
`buy_quantity` equals the total input `buy_quantity` over rows with
that broker and symbol. -/
theorem global_rollup_fold_correct (df : List SummaryRow) :
    (∀ p ∈ aggregate_broker_stock_data df,
      p.buy_quantity = ((df.filter fun r =>
        decide (gKey r = (p.broker_id, p.broker_name, p.symbol))).map
          (·.buy_quantity)).sum ∧
      p.buy_amount = ((df.filter fun r =>
        decide (gKey r = (p.broker_id, p.broker_name, p.symbol))).map
          (·.buy_amount)).sum ∧
      p.sell_quantity = ((df.filter fun r =>
        decide (gKey r = (p.broker_id, p.broker_name, p.symbol))).map
          (·.sell_quantity)).sum ∧
      p.sell_amount = ((df.filter fun r =>
        decide (gKey r = (p.broker_id, p.broker_name, p.symbol))).map
          (·.sell_amount)).sum ∧
      p.last_updated ∈ ((df.filter fun r =>
        decide (gKey r = (p.broker_id, p.broker_name, p.symbol))).map
          (·.date)) ∧
      (∀ r ∈ df.filter fun r =>
          decide (gKey r = (p.broker_id, p.broker_name, p.symbol)),
        strLe r.date p.last_updated)) ∧
    (∀ bid sym,
      (((aggregate_broker_stock_data df).filter fun p =>
          decide (p.broker_id = bid ∧ p.symbol = sym)).map
            (·.buy_quantity)).sum =
        ((df.filter fun r =>
          decide (r.broker_id = bid ∧ r.symbol = sym)).map
            (·.buy_quantity)).sum) := by
  have hkf : ∀ p ∈ upsertFold gKey gIni gUpd [] df,
      (fun a : GAgg => (a.broker_id, a.broker_name, a.symbol)) p.2 = p.1 :=
    keyField_upsertFold gKey gIni gUpd
      (fun a : GAgg => (a.broker_id, a.broker_name, a.symbol))
      (fun b => rfl) (fun c b => rfl) df [] (by simp)
  constructor
  · intro p hp
    unfold aggregate_broker_stock_data at hp
    by_cases hdf : df = []
    · rw [if_pos hdf] at hp
      simp at hp
    · rw [if_neg hdf] at hp
      obtain ⟨q, hq, rfl⟩ := List.mem_map.mp hp
      have hq1 : (q.2.broker_id, q.2.broker_name, q.2.symbol) = q.1 := hkf q hq
      have hnd : (keysA (upsertFold gKey gIni gUpd [] df)).Nodup :=
        nodup_keysA_upsertFold gKey gIni gUpd df [] (by simp [keysA])
      have hlk : lookupA q.1 (upsertFold gKey gIni gUpd [] df) = some q.2 :=
        lookupA_of_mem_nodup hnd hq
      have hchar := lookupA_upsertFold_none (k := q.1) gKey gIni gUpd df
        ([] : List (Key3 × GAgg)) rfl
      rw [hlk] at hchar
      have hkey : ((deriveG q.2).broker_id, (deriveG q.2).broker_name,
          (deriveG q.2).symbol) = q.1 := hq1
      rw [hkey]
      cases hfil : df.filter fun b => decide (gKey b = q.1) with
      | nil =>
        rw [hfil] at hchar
        cases hchar
      | cons b bs =>
        rw [hfil] at hchar
        have hq2 : q.2 = bs.foldl gUpd (gIni b) := by
          injection hchar
        have hbq : (deriveG q.2).buy_quantity =
            ((b :: bs).map (·.buy_quantity)).sum := by
          show q.2.buy_quantity = _
          rw [hq2, foldl_addField gUpd (·.buy_quantity) (·.buy_quantity)
            (fun c r => rfl) bs (gIni b)]
          simp [gIni]
        have hba : (deriveG q.2).buy_amount =
            ((b :: bs).map (·.buy_amount)).sum := by
          show q.2.buy_amount = _
          rw [hq2, foldl_addField gUpd (·.buy_amount) (·.buy_amount)
            (fun c r => rfl) bs (gIni b)]
          simp [gIni]
        have hsq : (deriveG q.2).sell_quantity =
            ((b :: bs).map (·.sell_quantity)).sum := by
          show q.2.sell_quantity = _
          rw [hq2, foldl_addField gUpd (·.sell_quantity) (·.sell_quantity)
            (fun c r => rfl) bs (gIni b)]
          simp [gIni]
        have hsa : (deriveG q.2).sell_amount =
            ((b :: bs).map (·.sell_amount)).sum := by
          show q.2.sell_amount = _
          rw [hq2, foldl_addField gUpd (·.sell_amount) (·.sell_amount)
            (fun c r => rfl) bs (gIni b)]
          simp [gIni]
        have hlu_mem : (deriveG q.2).last_updated ∈ (b :: bs).map (·.date) := by
          show q.2.last_updated ∈ _
          rw [hq2]
          rcases foldl_gUpd_lu_mem bs (gIni b) with h | h
          · rw [h]
            exact List.mem_cons_self ..
          · exact List.mem_cons_of_mem _ h
        have hlu_le : ∀ r ∈ b :: bs, strLe r.date (deriveG q.2).last_updated := by
          intro r hr
          show strLe r.date q.2.last_updated
          rw [hq2]
          simp only [strLe]
          rcases List.mem_cons.mp hr with h1 | h1
          · rw [h1]
            exact foldl_gUpd_lu_le bs (gIni b)
          · exact foldl_gUpd_lu_ge_mem bs (gIni b) r h1
        exact ⟨hbq, hba, hsq, hsa, hlu_mem, hlu_le⟩
  · intro bid sym
    by_cases hdf : df = []
    · simp [aggregate_broker_stock_data, hdf]
    · unfold aggregate_broker_stock_data
      rw [if_neg hdf]
      have hbridge : ∀ (m : List (Key3 × GAgg)),
          (∀ q ∈ m, (q.2.broker_id, q.2.broker_name, q.2.symbol) = q.1) →
          (((m.map fun q => deriveG q.2).filter fun p =>
              decide (p.broker_id = bid ∧ p.symbol = sym)).map
            (·.buy_quantity)).sum =
          ((m.filter fun q =>
              decide (q.1.1 = bid ∧ q.1.2.2 = sym)).map
            fun q => q.2.buy_quantity).sum := by
        intro m
        induction m with
        | nil => intro hm; simp
        | cons q t ih =>
          intro hm
          have hq := hm q (List.mem_cons_self ..)
          have hiff : ((deriveG q.2).broker_id = bid ∧
              (deriveG q.2).symbol = sym) ↔
              (q.1.1 = bid ∧ q.1.2.2 = sym) := by
            rw [← hq]
            exact Iff.rfl
          by_cases hc : q.1.1 = bid ∧ q.1.2.2 = sym
          · rw [List.map_cons, List.filter_cons, List.filter_cons]
            rw [if_pos (by simpa using hiff.mpr hc), if_pos (by simpa using hc)]
            rw [List.map_cons, List.map_cons, List.sum_cons, List.sum_cons,
              ih (fun q hq' => hm q (List.mem_cons_of_mem _ hq'))]
            rfl
          · rw [List.map_cons, List.filter_cons, List.filter_cons]
            rw [if_neg (by simpa using fun h => hc (hiff.mp h)),
              if_neg (by simpa using hc)]
            exact ih fun q hq' => hm q (List.mem_cons_of_mem _ hq')
      rw [hbridge _ hkf]
      have hsum := sumVal_upsertFold gKey gIni gUpd
        (fun k : Key3 => k.1 = bid ∧ k.2.2 = sym)
        GAgg.buy_quantity SummaryRow.buy_quantity
        (fun b => rfl) (fun c b => rfl) df []
      simp only [List.filter_nil, List.map_nil, List.sum_nil, zero_add] at hsum
      exact hsum

def rowC7 : SummaryRow :=
  ⟨"2024-01-05", "B7", "BrokerSeven", "Z", 20, 200, 5, 40, 10, 8, 15, 11⟩

def pC7 : GlobalRow :=
  (aggregate_broker_stock_data [rowC7]).head (by decide)

/-- Witness for C7 at a concrete one-row input. -/
theorem global_rollup_fold_correct_witness :
    pC7.buy_quantity = (([rowC7].filter fun r =>
      decide (gKey r = (pC7.broker_id, pC7.broker_name, pC7.symbol))).map
        (·.buy_quantity)).sum ∧
    pC7.buy_amount = (([rowC7].filter fun r =>
      decide (gKey r = (pC7.broker_id, pC7.broker_name, pC7.symbol))).map
        (·.buy_amount)).sum ∧
    pC7.sell_quantity = (([rowC7].filter fun r =>
      decide (gKey r = (pC7.broker_id, pC7.broker_name, pC7.symbol))).map
        (·.sell_quantity)).sum ∧
    pC7.sell_amount = (([rowC7].filter fun r =>
      decide (gKey r = (pC7.broker_id, pC7.broker_name, pC7.symbol))).map
        (·.sell_amount)).sum ∧
    pC7.last_updated ∈ (([rowC7].filter fun r =>
      decide (gKey r = (pC7.broker_id, pC7.broker_name, pC7.symbol))).map
        (·.date)) ∧
    (∀ r ∈ [rowC7].filter fun r =>
        decide (gKey r = (pC7.broker_id, pC7.broker_name, pC7.symbol)),
      strLe r.date pC7.last_updated) :=
  (global_rollup_fold_correct [rowC7]).1 pC7 (List.head_mem _)

/-! ## C10: buy side folded before sell side -/

/-- C10: whenever a `(broker_id, symbol)` pair occurs as a buyer in the
records of a date, its per-date summary row records a buyer name: the
buy loop runs before the sell loop, so the entry is created by a buy
group and the sell loop never overwrites `broker_name`. -/
theorem broker_name_from_buyer (d : String) (rs : List Txn)
    (row : SummaryRow) (hrow : row ∈ summarizeOneDate d rs)
    (hbuy : ∃ r ∈ rs, r.buyer_id = row.broker_id ∧ r.symbol = row.symbol) :
    ∃ r ∈ rs, r.buyer_id = row.broker_id ∧ r.symbol = row.symbol ∧
      row.broker_name = r.buyer_name := by
  unfold summarizeOneDate at hrow
  obtain ⟨q, hq, rfl⟩ := List.mem_map.mp hrow
  obtain ⟨r0, hr0, hid0, hsym0⟩ := hbuy
  -- field consistency for the composed fold
  have hkfBuy : ∀ p ∈ upsertFold aggKey (buyIni d) buyUpd [] (buyGroups rs),
      (fun a : Agg => (a.broker_id, a.symbol)) p.2 = p.1 :=
    keyField_upsertFold aggKey (buyIni d) buyUpd
      (fun a : Agg => (a.broker_id, a.symbol))
      (fun b => rfl) (fun c b => rfl) (buyGroups rs) [] (by simp)
  have hkf : ∀ p ∈ brokerStockAggs d rs,
      (fun a : Agg => (a.broker_id, a.symbol)) p.2 = p.1 :=
    keyField_upsertFold aggKey (sellIni d) sellUpd
      (fun a : Agg => (a.broker_id, a.symbol))
      (fun b => rfl) (fun c b => rfl) (sellGroups rs) _ hkfBuy
  have hq1 : (q.2.broker_id, q.2.symbol) = q.1 := hkf q hq
  -- the pair occurs as a buy-group key
  obtain ⟨g, hg, hgb, hgn, hgs⟩ :=
    exists_group_of_mem (fun r => (r.buyer_id, r.buyer_name, r.symbol)) hr0
  have hgk : aggKey g = q.1 := by
    rw [← hq1]
    show (g.broker, g.symbol) = (q.2.broker_id, q.2.symbol)
    rw [hgb, hgs, hid0, hsym0]
    exact rfl
  -- after the buy loop the pair has an entry, created by some buy group
  have hkmem : q.1 ∈ keysA (upsertFold aggKey (buyIni d) buyUpd []
      (buyGroups rs)) := by
    rw [← hgk]
    exact mem_keysA_upsertFold_of_item aggKey (buyIni d) buyUpd
      (buyGroups rs) [] hg
  obtain ⟨c, hc⟩ : ∃ c, lookupA q.1 (upsertFold aggKey (buyIni d) buyUpd []
      (buyGroups rs)) = some c := by
    cases hl : lookupA q.1 (upsertFold aggKey (buyIni d) buyUpd []
        (buyGroups rs)) with
    | none => exact absurd hkmem ((lookupA_eq_none_iff _ _).mp hl)
    | some c => exact ⟨c, rfl⟩
  have hprov := valField_upsertFold aggKey (buyIni d) buyUpd
    Agg.broker_name GroupRow.name (fun b => rfl) (fun c b => rfl)
    (buyGroups rs) [] (q.1, c) (mem_of_lookupA hc)
  rcases hprov with ⟨c0, hc0, -⟩ | ⟨g', hg', hgk', hnm⟩
  · simp at hc0
  obtain ⟨r', hr', hkey'⟩ :=
    mem_group_src (fun r => (r.buyer_id, r.buyer_name, r.symbol)) hg'
  have hk1 : r'.buyer_id = g'.broker := congrArg (fun t => t.1) hkey'
  have hk2 : r'.buyer_name = g'.name := congrArg (fun t => t.2.1) hkey'
  have hk3 : r'.symbol = g'.symbol := congrArg (fun t => t.2.2) hkey'
  -- the sell loop updates the entry in place, preserving broker_name
  have hfold : brokerStockAggs d rs =
      upsertFold aggKey (sellIni d) sellUpd
        (upsertFold aggKey (buyIni d) buyUpd [] (buyGroups rs))
        (sellGroups rs) := rfl
  have hnd2 : (keysA (brokerStockAggs d rs)).Nodup := by
    rw [hfold]
    exact nodup_keysA_upsertFold aggKey (sellIni d) sellUpd (sellGroups rs) _
      (nodup_keysA_upsertFold aggKey (buyIni d) buyUpd (buyGroups rs) []
        (by simp [keysA]))
  have hlkq : lookupA q.1 (brokerStockAggs d rs) = some q.2 :=
    lookupA_of_mem_nodup hnd2 hq
  have hlk2 := lookupA_upsertFold_some (k := q.1) aggKey (sellIni d) sellUpd
    (sellGroups rs) _ c hc
  rw [← hfold, hlkq] at hlk2
  have hq2 : q.2 = ((sellGroups rs).filter fun b =>
      decide (aggKey b = q.1)).foldl sellUpd c := by
    injection hlk2
  have hname : q.2.broker_name = c.broker_name := by
    rw [hq2]
    exact foldl_constField sellUpd Agg.broker_name (fun c b => rfl) _ c
  refine ⟨r', hr', ?_, ?_, ?_⟩
  · show r'.buyer_id = q.2.broker_id
    have : (aggKey g').1 = q.1.1 := congrArg (fun t => t.1) hgk'
    rw [hk1, ← hq1] at *
    exact this
  · show r'.symbol = q.2.symbol
    have : (aggKey g').2 = q.1.2 := congrArg (fun t => t.2) hgk'
    rw [hk3, ← hq1] at *
    exact this
  · show q.2.broker_name = r'.buyer_name
    rw [hname, hnm, hk2]

/-- Witness for C10 at a concrete one-transaction input. -/
theorem broker_name_from_buyer_witness :
    ∃ r ∈ [txD1], r.buyer_id = rowC5.broker_id ∧ r.symbol = rowC5.symbol ∧
      rowC5.broker_name = r.buyer_name :=
  broker_name_from_buyer "2024-01-02" [txD1] rowC5 (List.head_mem _)
    ⟨txD1, List.mem_cons_self .., by decide, by decide⟩
